import Mathlib

/-!
# LoopRewriter: a clang plugin that appends `break` to the `for` loops of `main`

Verification development for `clang/examples/LoopRewriter/LoopRewriter.cpp`.

The plugin consists of three source functions:

* `ForStmtVisitor::VisitForStmt`: when the body of a `for` statement is a
  `CompoundStmt`, copies its statements into a stash array, adds a `BreakStmt`
  and installs a new `CompoundStmt` as the body;
* `RewriteLoopConsumer::HandleTopLevelDecl`: runs the visitor on every
  declaration of a group whose name is `main`;
* `LoopRewriterAction::ParseArgs`: accepts every argument list.

The syntax tree, the traversal driver (`RecursiveASTVisitor`) and the parse
loop belong to the host compiler; they are modelled here as far as the plugin
observes them.  In-place mutation of the tree becomes a function from trees to
trees, and the stream `llvm::errs()` becomes the list of strings written to it.
-/

namespace LoopRewriter

/-! ## The syntax tree -/

/-- A source location, as an opaque position number. -/
abbrev SourceLocation := Nat

/-- The kinds of declaration that the development tells apart. -/
inductive DeclKind where
  | Function
  | Namespace
  | Record
  | Var
  | Misc
deriving DecidableEq, Repr

/-- Modelled from the spec: the host's syntax tree, a tagged variant over the
node kinds.  `ForStmt` carries the five child slots of the host's loop node
(the first four may be null), `CompoundStmt` the brace locations and the
ordered statements, `BreakStmt` only its location.  Every other statement or
expression is an `Other` node with the children the traversal visits, and a
declaration nested in the tree (a local declaration, a member of a record or
of a namespace) is a `NestedDecl` with its kind, its name when it is a
`NamedDecl`, and its children. -/
inductive Stmt where
  | CompoundStmt (LBracLoc RBracLoc : SourceLocation) (Body : List Stmt)
  | ForStmt (Init CondVar Cond Inc : Option Stmt) (Body : Stmt)
  | WhileStmt (Cond Body : Stmt)
  | DoStmt (Body Cond : Stmt)
  | CXXForRangeStmt (Head : List Stmt) (Body : Stmt)
  | BreakStmt (BreakLoc : SourceLocation)
  | Other (Kind : String) (Children : List Stmt)
  | NestedDecl (Kind : DeclKind) (Name : Option String) (Children : List Stmt)
deriving Repr

/-- Modelled from the spec: a top-level declaration.  `Name` is `none` when the
declaration is not a `NamedDecl` (the `dyn_cast` of `HandleTopLevelDecl`
fails), and otherwise the result of `getNameAsString`. -/
structure Decl where
  Kind : DeclKind
  Name : Option String
  Children : List Stmt
deriving Repr

/-- A group of declarations sharing one declaration statement. -/
abbrev DeclGroupRef := List Decl

/-- What a visiting or traversing call leaves behind: its return value, the
node it worked on (after mutation) and the lines it wrote to `llvm::errs()`. -/
abbrev Outcome (α : Type) := Bool × α × List String

/-- Modelled from the spec: the children of a node in the order in which the
traversal reads them; null slots of a `for` statement are skipped. -/
def Stmt.children : Stmt → List Stmt
  | .CompoundStmt _ _ Body => Body
  | .ForStmt Init CondVar Cond Inc Body =>
      Init.toList ++ CondVar.toList ++ Cond.toList ++ Inc.toList ++ [Body]
  | .WhileStmt Cond Body => [Cond, Body]
  | .DoStmt Body Cond => [Body, Cond]
  | .CXXForRangeStmt Head Body => Head ++ [Body]
  | .BreakStmt _ => []
  | .Other _ Children => Children
  | .NestedDecl _ _ Children => Children

/-- Puts a traversed child back into a possibly-null slot: a null slot takes
nothing from the list, a filled slot takes its head. -/
def refill : Option Stmt → List Stmt → Option Stmt × List Stmt
  | none, cs => (none, cs)
  | some S, [] => (some S, [])
  | some _, c :: cs => (some c, cs)

/-- Modelled from the spec: the node with its children replaced, slot by slot,
by the given list (the traversal mutates the children in place; here the
outcome of each child is written back to the slot it came from). -/
def Stmt.setChildren : Stmt → List Stmt → Stmt
  | .CompoundStmt L R _, cs => .CompoundStmt L R cs
  | .ForStmt Init CondVar Cond Inc Body, cs =>
      let r1 := refill Init cs
      let r2 := refill CondVar r1.2
      let r3 := refill Cond r2.2
      let r4 := refill Inc r3.2
      .ForStmt r1.1 r2.1 r3.1 r4.1 (r4.2.headD Body)
  | .WhileStmt Cond Body, cs => .WhileStmt (cs.headD Cond) (cs.tail.headD Body)
  | .DoStmt Body Cond, cs => .DoStmt (cs.headD Body) (cs.tail.headD Cond)
  | .CXXForRangeStmt Head Body, cs =>
      .CXXForRangeStmt (cs.take Head.length) ((cs.drop Head.length).headD Body)
  | .BreakStmt L, _ => .BreakStmt L
  | .Other K _, cs => .Other K cs
  | .NestedDecl K N _, cs => .NestedDecl K N cs

/-! ## `ForStmtVisitor::VisitForStmt` -/

/-- The stash array `new Stmt *[k]`: `k` slots, none of them initialised. -/
def newStash (k : Nat) : List (Option Stmt) := List.replicate k none

/-- The store `stashedBody[i] = S`; `none` when `i` is outside the array. -/
def storeAt (stashedBody : List (Option Stmt)) (i : Nat) (S : Stmt) :
    Option (List (Option Stmt)) :=
  if i < stashedBody.length then some (stashedBody.set i (some S)) else none

/-- The copy loop of `VisitForStmt` (lines 43-47): for each statement of the
block, in order, `stashedBody[stashIndex++] = S`.  Returns the array and the
final `stashIndex`, or `none` if a store falls outside the array. -/
def copyBody : List Stmt → List (Option Stmt) → Nat → Option (List (Option Stmt) × Nat)
  | [], stashedBody, stashIndex => some (stashedBody, stashIndex)
  | S :: rest, stashedBody, stashIndex =>
      match storeAt stashedBody stashIndex S with
      | none => none
      | some stashedBody1 => copyBody rest stashedBody1 (stashIndex + 1)

/-- The read of every slot of a list of slots; `none` if one of them was never
written. -/
def readAll : List (Option Stmt) → Option (List Stmt)
  | [] => some []
  | none :: _ => none
  | some S :: rest =>
      match readAll rest with
      | none => none
      | some Ss => some (S :: Ss)

/-- The view `ArrayRef<Stmt *>(stashedBody, len)` as read by
`CompoundStmt::Create`: the first `len` slots; `none` when `len` exceeds the
array or a slot read was never written. -/
def ArrayRef (stashedBody : List (Option Stmt)) (len : Nat) : Option (List Stmt) :=
  if len ≤ stashedBody.length then readAll (stashedBody.take len) else none

/-- Modelled from the spec: `CompoundStmt::getEndLoc`, the block's end, which
is its closing brace location. -/
def getEndLoc (_LBracLoc RBracLoc : SourceLocation) : SourceLocation := RBracLoc

/-- The method `ForStmtVisitor::VisitForStmt(ForStmt *FS)`, given the fields
of `FS`.  The outcome holds the return value, the loop after the call and the
lines written.  The result is `none` only if an array access is out of bounds
or reads an unwritten slot.  A block has fewer statements than its source text
has characters, and the host addresses source text with 31-bit offsets, so
neither the `int` counter `stashIndex` nor the unsigned `CS->size() + 1` can
wrap; both are natural numbers here.  The final `delete stashedBody` releases
the stash and leaves the tree alone. -/
def VisitForStmt (Init CondVar Cond Inc : Option Stmt) (Body : Stmt) : Option (Outcome Stmt) :=
  match Body with
  | .CompoundStmt LBracLoc RBracLoc CS =>
      -- llvm::errs() << "inside for loop\n";
      let stashedBody := newStash (CS.length + 1)
      match copyBody CS stashedBody 0 with
      | none => none
      | some (stashedBody1, stashIndex1) =>
          match storeAt stashedBody1 stashIndex1 (.BreakStmt (getEndLoc LBracLoc RBracLoc)) with
          | none => none
          | some stashedBody2 =>
              match ArrayRef stashedBody2 (stashIndex1 + 1) with
              | none => none
              | some stmts =>
                  some (true,
                    .ForStmt Init CondVar Cond Inc (.CompoundStmt LBracLoc RBracLoc stmts),
                    ["inside for loop\n"])
  | _ => some (true, .ForStmt Init CondVar Cond Inc Body, [])

/-! ## The traversal driver -/

/-- Modelled from the spec: the dispatch of the traversal driver to the
visitor.  Only `for` statements have a visiting method; every other node is
left alone and the traversal goes on. -/
def WalkUpFrom : Stmt → Option (Outcome Stmt)
  | .ForStmt Init CondVar Cond Inc Body => VisitForStmt Init CondVar Cond Inc Body
  | S => some (true, S, [])

/-- Modelled from the spec: the children of a node are traversed in order; a
child whose traversal returns `false` cuts the traversal short. -/
def traverseChildren (f : Stmt → Option (Outcome Stmt)) :
    List Stmt → Option (Outcome (List Stmt))
  | [] => some (true, [], [])
  | S :: rest =>
      match f S with
      | none => none
      | some (false, S1, e1) => some (false, S1 :: rest, e1)
      | some (true, S1, e1) =>
          match traverseChildren f rest with
          | none => none
          | some (ok, rest1, e2) => some (ok, S1 :: rest1, e1 ++ e2)

/-- Modelled from the spec: `RecursiveASTVisitor::TraverseStmt`, the pre-order
depth-first traversal.  A node is visited first, and its children are read
after the visit, from the node as the visit left it.  `fuel` bounds the
nesting depth that the traversal can descend; `none` means it ran out (or the
visitor failed). -/
def TraverseStmt : Nat → Stmt → Option (Outcome Stmt)
  | 0, _ => none
  | fuel + 1, S =>
      match WalkUpFrom S with
      | none => none
      | some (false, S1, e1) => some (false, S1, e1)
      | some (true, S1, e1) =>
          match traverseChildren (TraverseStmt fuel) S1.children with
          | none => none
          | some (ok, cs, e2) => some (ok, S1.setChildren cs, e1 ++ e2)

/-- Modelled from the spec: `TraverseDecl` on a top-level declaration runs the
traversal over the declaration's entire subtree. -/
def TraverseDecl (fuel : Nat) (D : Decl) : Option (Outcome Decl) :=
  match traverseChildren (TraverseStmt fuel) D.Children with
  | none => none
  | some (ok, cs, e) => some (ok, { D with Children := cs }, e)

/-! ## `RewriteLoopConsumer::HandleTopLevelDecl` and `ParseArgs` -/

/-- The body of the loop of `HandleTopLevelDecl` (lines 77-83) for one
declaration `D` of the group: the declaration after the step and the lines
written.  The return value of `TraverseDecl` is dropped, as in the source. -/
def handleDecl (fuel : Nat) (D : Decl) : Option (Decl × List String) :=
  match D.Name with
  | none => some (D, [])
  | some name =>
      if name = "main" then
        match TraverseDecl fuel D with
        | none => none
        | some (_, D1, e) => some (D1, "inside main()\n" :: e)
      else some (D, [])

/-- The loop of `HandleTopLevelDecl` over the declarations of the group. -/
def handleDecls (fuel : Nat) : List Decl → Option (List Decl × List String)
  | [] => some ([], [])
  | D :: rest =>
      match handleDecl fuel D with
      | none => none
      | some (D1, e1) =>
          match handleDecls fuel rest with
          | none => none
          | some (rest1, e2) => some (D1 :: rest1, e1 ++ e2)

/-- The method `RewriteLoopConsumer::HandleTopLevelDecl(DeclGroupRef DG)`. -/
def HandleTopLevelDecl (fuel : Nat) (DG : DeclGroupRef) : Option (Outcome DeclGroupRef) :=
  match handleDecls fuel DG with
  | none => none
  | some (DG1, e) => some (true, DG1, e)

/-- The method `LoopRewriterAction::ParseArgs`; the compiler instance plays no
part and is left out. -/
def ParseArgs (_args : List String) : Bool := true

/-- Modelled from the spec: the host's parse loop hands each top-level
declaration group to the consumer, in source order, and stops when the
consumer returns `false`. -/
def ParseAST (fuel : Nat) : List DeclGroupRef → Option (List DeclGroupRef × List String)
  | [] => some ([], [])
  | DG :: rest =>
      match HandleTopLevelDecl fuel DG with
      | none => none
      | some (false, DG1, e1) => some (DG1 :: rest, e1)
      | some (true, DG1, e1) =>
          match ParseAST fuel rest with
          | none => none
          | some (rest1, e2) => some (DG1 :: rest1, e1 ++ e2)


/-! ## The rewrite as the specification words it -/

/-- One `break`, at the block's closing brace, appended to a block; any other
statement is returned as it is. -/
def addBreak : Stmt → Stmt
  | .CompoundStmt L R Body => .CompoundStmt L R (Body ++ [.BreakStmt R])
  | S => S

mutual
/-- The rewrite in the specification's words: each block-bodied `for` loop, at
every nesting depth, receives exactly one appended `break`; nothing else
changes. -/
def appendBreaks : Stmt → Stmt
  | .CompoundStmt L R Body => .CompoundStmt L R (appendBreaksL Body)
  | .ForStmt Init CondVar Cond Inc Body =>
      .ForStmt (appendBreaksO Init) (appendBreaksO CondVar) (appendBreaksO Cond)
        (appendBreaksO Inc) (addBreak (appendBreaks Body))
  | .WhileStmt Cond Body => .WhileStmt (appendBreaks Cond) (appendBreaks Body)
  | .DoStmt Body Cond => .DoStmt (appendBreaks Body) (appendBreaks Cond)
  | .CXXForRangeStmt Head Body => .CXXForRangeStmt (appendBreaksL Head) (appendBreaks Body)
  | .BreakStmt L => .BreakStmt L
  | .Other K Children => .Other K (appendBreaksL Children)
  | .NestedDecl K N Children => .NestedDecl K N (appendBreaksL Children)
/-- The rewrite of every statement of a list. -/
def appendBreaksL : List Stmt → List Stmt
  | [] => []
  | S :: rest => appendBreaks S :: appendBreaksL rest
/-- The rewrite of a possibly-null child. -/
def appendBreaksO : Option Stmt → Option Stmt
  | none => none
  | some S => some (appendBreaks S)
end

/-- Whether a statement is a block. -/
def isBlock : Stmt → Bool
  | .CompoundStmt _ _ _ => true
  | _ => false

mutual
/-- The number of `for` loops in a tree whose body is a block. -/
def countBlockFor : Stmt → Nat
  | .CompoundStmt _ _ Body => countBlockForL Body
  | .ForStmt Init CondVar Cond Inc Body =>
      (if isBlock Body then 1 else 0) + (countBlockForO Init + countBlockForO CondVar
        + countBlockForO Cond + countBlockForO Inc + countBlockFor Body)
  | .WhileStmt Cond Body => countBlockFor Cond + countBlockFor Body
  | .DoStmt Body Cond => countBlockFor Body + countBlockFor Cond
  | .CXXForRangeStmt Head Body => countBlockForL Head + countBlockFor Body
  | .BreakStmt _ => 0
  | .Other _ Children => countBlockForL Children
  | .NestedDecl _ _ Children => countBlockForL Children
/-- The number of block-bodied `for` loops in a list of trees. -/
def countBlockForL : List Stmt → Nat
  | [] => 0
  | S :: rest => countBlockFor S + countBlockForL rest
/-- The number of block-bodied `for` loops under a possibly-null child. -/
def countBlockForO : Option Stmt → Nat
  | none => 0
  | some S => countBlockFor S
end

mutual
/-- The number of `break` statements in a tree. -/
def countBreak : Stmt → Nat
  | .CompoundStmt _ _ Body => countBreakL Body
  | .ForStmt Init CondVar Cond Inc Body =>
      countBreakO Init + countBreakO CondVar + countBreakO Cond + countBreakO Inc
        + countBreak Body
  | .WhileStmt Cond Body => countBreak Cond + countBreak Body
  | .DoStmt Body Cond => countBreak Body + countBreak Cond
  | .CXXForRangeStmt Head Body => countBreakL Head + countBreak Body
  | .BreakStmt _ => 1
  | .Other _ Children => countBreakL Children
  | .NestedDecl _ _ Children => countBreakL Children
/-- The number of `break` statements in a list of trees. -/
def countBreakL : List Stmt → Nat
  | [] => 0
  | S :: rest => countBreak S + countBreakL rest
/-- The number of `break` statements under a possibly-null child. -/
def countBreakO : Option Stmt → Nat
  | none => 0
  | some S => countBreak S
end

/-- The block without its last statement; any other statement as it is. -/
def dropLastStmt : Stmt → Stmt
  | .CompoundStmt L R Body => .CompoundStmt L R Body.dropLast
  | S => S

mutual
/-- The tree in which the body of every block-bodied `for` loop has lost its
last statement. -/
def stripLast : Stmt → Stmt
  | .CompoundStmt L R Body => .CompoundStmt L R (stripLastL Body)
  | .ForStmt Init CondVar Cond Inc Body =>
      .ForStmt (stripLastO Init) (stripLastO CondVar) (stripLastO Cond)
        (stripLastO Inc) (dropLastStmt (stripLast Body))
  | .WhileStmt Cond Body => .WhileStmt (stripLast Cond) (stripLast Body)
  | .DoStmt Body Cond => .DoStmt (stripLast Body) (stripLast Cond)
  | .CXXForRangeStmt Head Body => .CXXForRangeStmt (stripLastL Head) (stripLast Body)
  | .BreakStmt L => .BreakStmt L
  | .Other K Children => .Other K (stripLastL Children)
  | .NestedDecl K N Children => .NestedDecl K N (stripLastL Children)
/-- The same for every statement of a list. -/
def stripLastL : List Stmt → List Stmt
  | [] => []
  | S :: rest => stripLast S :: stripLastL rest
/-- The same for a possibly-null child. -/
def stripLastO : Option Stmt → Option Stmt
  | none => none
  | some S => some (stripLast S)
end


mutual
/-- The nesting depth of a tree: a node without children has depth one. -/
def depth : Stmt → Nat
  | .CompoundStmt _ _ Body => 1 + depthL Body
  | .ForStmt Init CondVar Cond Inc Body =>
      1 + max (depthO Init) (max (depthO CondVar) (max (depthO Cond)
        (max (depthO Inc) (depth Body))))
  | .WhileStmt Cond Body => 1 + max (depth Cond) (depth Body)
  | .DoStmt Body Cond => 1 + max (depth Body) (depth Cond)
  | .CXXForRangeStmt Head Body => 1 + max (depthL Head) (depth Body)
  | .BreakStmt _ => 1
  | .Other _ Children => 1 + depthL Children
  | .NestedDecl _ _ Children => 1 + depthL Children
/-- The largest depth among the trees of a list. -/
def depthL : List Stmt → Nat
  | [] => 0
  | S :: rest => max (depth S) (depthL rest)
/-- The depth under a possibly-null child. -/
def depthO : Option Stmt → Nat
  | none => 0
  | some S => depth S
end

/-- The node as `VisitForStmt` leaves it: a `for` loop with a block body has
the `break` appended to the block; every other node is untouched. -/
def visitNode : Stmt → Stmt
  | .ForStmt Init CondVar Cond Inc Body => .ForStmt Init CondVar Cond Inc (addBreak Body)
  | S => S

/-- Whether a node is a `for` loop whose body is a block. -/
def isBlockFor : Stmt → Bool
  | .ForStmt _ _ _ _ Body => isBlock Body
  | _ => false

/-- The trace of `n` rewritten loops. -/
def forLines (n : Nat) : List String := List.replicate n "inside for loop\n"

/-- The node reached from a node by a path of child indices: the position of
a statement in a tree. -/
def subAt : List Nat → Stmt → Option Stmt
  | [], S => some S
  | i :: p, S =>
      match S.children[i]? with
      | none => none
      | some c => subAt p c

/-- The node at a position of the subtree of a top-level declaration. -/
def Decl.subAt (D : Decl) : List Nat → Option Stmt
  | [] => none
  | i :: p =>
      match D.Children[i]? with
      | none => none
      | some c => LoopRewriter.subAt p c

/-- The deepest nesting among the subtrees of the declarations of a group. -/
def groupDepth (DG : List Decl) : Nat := depthL (DG.flatMap Decl.Children)

/-- The deepest nesting among the declarations of a file. -/
def fileDepth (file : List DeclGroupRef) : Nat := groupDepth file.flatten

/-- The declaration with every block-bodied `for` loop of its subtree given
one `break`. -/
def rewriteDecl (D : Decl) : Decl := { D with Children := D.Children.map appendBreaks }

/-- What the specification asks of the consumer for one declaration: the
rewrite when the declaration is a named entity called `main`, nothing
otherwise. -/
def specDecl (D : Decl) : Decl := if D.Name = some "main" then rewriteDecl D else D

/-- The lines the specification asks for one declaration: for `main`, the line
for entering it and one line per rewritten loop; for any other, none. -/
def specLines (D : Decl) : List String :=
  if D.Name = some "main" then "inside main()\n" :: forLines (countBlockForL D.Children) else []

/-- The lines the specification asks for a group. -/
def groupLines (DG : List Decl) : List String := (DG.map specLines).flatten

/-! ## Concrete inputs -/

/-- The statement `x=1;`. -/
def stmtX : Stmt := .Other "x=1" []

/-- The loop `for(int i=0;i<10;i++){ x=1; }`, with braces at 3 and 8. -/
def loopBraced : Stmt :=
  .ForStmt (some (.Other "int i=0" [])) none (some (.Other "i<10" [])) (some (.Other "i++" []))
    (.CompoundStmt 3 8 [stmtX])

/-- The loop `for(int i=0;i<10;i++){ x=1; break; }`. -/
def loopBracedAfter : Stmt :=
  .ForStmt (some (.Other "int i=0" [])) none (some (.Other "i<10" [])) (some (.Other "i++" []))
    (.CompoundStmt 3 8 [stmtX, .BreakStmt 8])

/-- The loop `for(int i=0;i<10;i++) x=1;`, without braces. -/
def loopBare : Stmt :=
  .ForStmt (some (.Other "int i=0" [])) none (some (.Other "i<10" [])) (some (.Other "i++" []))
    stmtX

/-- The loop `for(;;){ x=1; }`, with braces at 4 and 7. -/
def loopInner : Stmt := .ForStmt none none none none (.CompoundStmt 4 7 [stmtX])

/-- The loop `for(;;){ x=1; break; }`. -/
def loopInnerAfter : Stmt :=
  .ForStmt none none none none (.CompoundStmt 4 7 [stmtX, .BreakStmt 7])

/-- The loop `for(;;){ for(;;){ x=1; } }`: a block-bodied loop in a block-bodied
loop. -/
def loopNested : Stmt := .ForStmt none none none none (.CompoundStmt 3 8 [loopInner])

/-- The loop `for(;;) for(;;){ x=1; }`: a loop whose body is a loop, not a
block. -/
def loopOverLoop : Stmt := .ForStmt none none none none loopInner

/-- A function of the given name whose body, with braces at 1 and 9, holds the
given statements. -/
def functionDecl (name : String) (stmts : List Stmt) : Decl :=
  { Kind := .Function, Name := some name, Children := [.CompoundStmt 1 9 stmts] }

/-- The function `f`, as a member: `void f() { for(;;){ x=1; } }`. -/
def memberF : Stmt := .NestedDecl .Function (some "f") [.CompoundStmt 1 9 [loopInner]]

/-- The top-level declaration `namespace main { void f() { for(;;){ x=1; } } }`. -/
def namespaceMain : Decl := { Kind := .Namespace, Name := some "main", Children := [memberF] }

/-- The top-level declaration
`namespace main { void f() { for(;;){ x=1; break; } } }`. -/
def namespaceMainAfter : Decl :=
  { Kind := .Namespace, Name := some "main",
    Children := [.NestedDecl .Function (some "f") [.CompoundStmt 1 9 [loopInnerAfter]]] }

/-! ## Lemmas on the stash array -/

theorem readAll_map_some (Ss : List Stmt) : readAll (Ss.map some) = some Ss := by
  induction Ss with
  | nil => rfl
  | cons S rest ih => simp [readAll, ih]

theorem copyBody_spec (CS : List Stmt) :
    ∀ (pre : List Stmt) (k : Nat),
      copyBody CS (pre.map some ++ List.replicate (CS.length + k) none) pre.length
        = some ((pre ++ CS).map some ++ List.replicate k none, pre.length + CS.length) := by
  induction CS with
  | nil => intro pre k; simp [copyBody]
  | cons S rest ih =>
      intro pre k
      have hlen : rest.length + 1 + k = (rest.length + k) + 1 := by omega
      have hst : storeAt (pre.map some ++ List.replicate (rest.length + 1 + k) none) pre.length S
          = some ((pre ++ [S]).map some ++ List.replicate (rest.length + k) none) := by
        unfold storeAt
        rw [if_pos (by simp)]
        rw [hlen, List.replicate_succ]
        have h : ((pre.map some) ++ (none :: List.replicate (rest.length + k) none)).set
            pre.length (some S)
            = pre.map some ++ (none :: List.replicate (rest.length + k) none).set
                (pre.length - (pre.map some).length) (some S) :=
          List.set_append_right pre.length (some S) (by simp)
        rw [h]
        simp
      simp only [copyBody, List.length_cons]
      rw [hst]
      have := ih (pre ++ [S]) k
      simp only [List.length_append, List.length_singleton, List.append_assoc,
        List.singleton_append] at this
      simp only [this]
      congr 2
      omega

theorem VisitForStmt_block (Init CondVar Cond Inc : Option Stmt) (L R : SourceLocation)
    (CS : List Stmt) :
    VisitForStmt Init CondVar Cond Inc (.CompoundStmt L R CS)
      = some (true, Stmt.ForStmt Init CondVar Cond Inc (.CompoundStmt L R (CS ++ [.BreakStmt R])),
          ["inside for loop\n"]) := by
  have h1 : copyBody CS (newStash (CS.length + 1)) 0
      = some (CS.map some ++ [none], CS.length) := by
    have := copyBody_spec CS [] 1
    simpa [newStash] using this
  have h2 : storeAt (CS.map some ++ [none]) CS.length (Stmt.BreakStmt R)
      = some ((CS ++ [Stmt.BreakStmt R]).map some) := by
    unfold storeAt
    rw [if_pos (by simp)]
    have h : ((CS.map some) ++ [none]).set CS.length (some (Stmt.BreakStmt R))
        = CS.map some ++ ([none] : List (Option Stmt)).set
            (CS.length - (CS.map some).length) (some (Stmt.BreakStmt R)) :=
      List.set_append_right CS.length (some (Stmt.BreakStmt R)) (by simp)
    rw [h]; simp
  have h3 : ArrayRef ((CS ++ [Stmt.BreakStmt R]).map some) (CS.length + 1)
      = some (CS ++ [Stmt.BreakStmt R]) := by
    unfold ArrayRef
    rw [if_pos (by simp)]
    rw [List.take_of_length_le (by simp)]
    exact readAll_map_some _
  simp only [VisitForStmt, h1, getEndLoc, h2, h3]


/-! ## Lemmas on the tree functions -/

theorem appendBreaksL_eq_map (Ss : List Stmt) : appendBreaksL Ss = Ss.map appendBreaks := by
  induction Ss with
  | nil => simp [appendBreaksL]
  | cons S rest ih => simp [appendBreaksL, ih]

theorem appendBreaksO_eq_map (o : Option Stmt) : appendBreaksO o = o.map appendBreaks := by
  cases o <;> simp [appendBreaksO]

theorem stripLastL_eq_map (Ss : List Stmt) : stripLastL Ss = Ss.map stripLast := by
  induction Ss with
  | nil => simp [stripLastL]
  | cons S rest ih => simp [stripLastL, ih]

theorem countBlockForL_append (a b : List Stmt) :
    countBlockForL (a ++ b) = countBlockForL a + countBlockForL b := by
  induction a with
  | nil => simp [countBlockForL]
  | cons S rest ih => simp [countBlockForL, ih]; omega

theorem countBreakL_append (a b : List Stmt) :
    countBreakL (a ++ b) = countBreakL a + countBreakL b := by
  induction a with
  | nil => simp [countBreakL]
  | cons S rest ih => simp [countBreakL, ih]; omega

theorem countBlockForL_toList (o : Option Stmt) : countBlockForL o.toList = countBlockForO o := by
  cases o <;> simp [countBlockForL, countBlockForO]

theorem depth_le_depthL {c : Stmt} {cs : List Stmt} (h : c ∈ cs) : depth c ≤ depthL cs := by
  induction cs with
  | nil => cases h
  | cons S rest ih =>
      simp only [depthL]
      rcases List.mem_cons.1 h with h | h
      · subst h; exact le_max_left _ _
      · exact le_trans (ih h) (le_max_right _ _)

theorem depthL_append (a b : List Stmt) : depthL (a ++ b) = max (depthL a) (depthL b) := by
  induction a with
  | nil => simp [depthL]
  | cons S rest ih => simp [depthL, ih, max_assoc]

theorem depthL_toList (o : Option Stmt) : depthL o.toList = depthO o := by
  cases o <;> simp [depthL, depthO]

/-- Every child of a node lies strictly less deep than the node. -/
theorem depth_child_lt {c : Stmt} (T : Stmt) (h : c ∈ T.children) : depth c < depth T := by
  have key : depthL T.children < depth T := by
    cases T <;>
      simp [Stmt.children, depth, depthL, depthL_append, depthL_toList]
  exact lt_of_le_of_lt (depth_le_depthL h) key

theorem forLines_zero : forLines 0 = [] := rfl

theorem forLines_add (a b : Nat) : forLines (a + b) = forLines a ++ forLines b := by
  unfold forLines; exact List.replicate_add _ _ _

theorem forLines_one : forLines 1 = ["inside for loop\n"] := rfl

theorem WalkUpFrom_eq (S : Stmt) :
    WalkUpFrom S = some (true, visitNode S, forLines (if isBlockFor S then 1 else 0)) := by
  cases S with
  | ForStmt I CV C N B =>
      cases B with
      | CompoundStmt L R CS =>
          simp only [WalkUpFrom, VisitForStmt_block]
          simp [visitNode, addBreak, isBlockFor, isBlock, forLines_one]
      | _ => simp [WalkUpFrom, VisitForStmt, visitNode, addBreak, isBlockFor, isBlock,
          forLines_zero]
  | _ => simp [WalkUpFrom, visitNode, isBlockFor, forLines_zero]

theorem traverseChildren_eq (f : Stmt → Option (Outcome Stmt)) (g : Stmt → Stmt)
    (n : Stmt → Nat) :
    ∀ cs : List Stmt, (∀ c ∈ cs, f c = some (true, g c, forLines (n c))) →
      traverseChildren f cs = some (true, cs.map g, forLines ((cs.map n).sum)) := by
  intro cs
  induction cs with
  | nil => intro _; simp [traverseChildren, forLines_zero]
  | cons S rest ih =>
      intro h
      have h1 := h S (List.mem_cons_self _ _)
      have h2 := ih (fun c hc => h c (List.mem_cons_of_mem _ hc))
      simp [traverseChildren, h1, h2, forLines_add]

theorem countBlockForL_eq_sum (cs : List Stmt) :
    countBlockForL cs = (cs.map countBlockFor).sum := by
  induction cs with
  | nil => simp [countBlockForL]
  | cons S rest ih => simp [countBlockForL, ih]

theorem addBreak_appendBreaks (B : Stmt) :
    appendBreaks (addBreak B) = addBreak (appendBreaks B) := by
  cases B <;> simp [addBreak, appendBreaks, appendBreaksL_eq_map]

/-- The children of the rewritten node are the rewritten children of the
visited node. -/
theorem children_appendBreaks (S : Stmt) :
    (appendBreaks S).children = (visitNode S).children.map appendBreaks := by
  cases S with
  | ForStmt I CV C N B =>
      cases I <;> cases CV <;> cases C <;> cases N <;>
        simp [appendBreaks, visitNode, Stmt.children, appendBreaksO, addBreak_appendBreaks]
  | _ => simp [appendBreaks, visitNode, Stmt.children, appendBreaksL_eq_map]

/-- Writing the rewritten children back into the visited node gives the
rewritten node. -/
theorem setChildren_appendBreaks (S : Stmt) :
    (visitNode S).setChildren ((visitNode S).children.map appendBreaks) = appendBreaks S := by
  cases S with
  | ForStmt I CV C N B =>
      cases I <;> cases CV <;> cases C <;> cases N <;>
        simp [appendBreaks, visitNode, Stmt.children, Stmt.setChildren, refill, appendBreaksO,
          addBreak_appendBreaks]
  | _ => simp [appendBreaks, visitNode, Stmt.children, Stmt.setChildren, appendBreaksL_eq_map]

theorem countBlockFor_addBreak (B : Stmt) : countBlockFor (addBreak B) = countBlockFor B := by
  cases B <;> simp [addBreak, countBlockFor, countBlockForL_append, countBlockForL]

/-- The loops of a tree are the loop at its root, if it is one, and the loops
of the children of the visited root. -/
theorem countBlockFor_children (S : Stmt) :
    countBlockFor S
      = (if isBlockFor S then 1 else 0) + countBlockForL (visitNode S).children := by
  cases S with
  | ForStmt I CV C N B =>
      simp [countBlockFor, visitNode, Stmt.children, isBlockFor, countBlockForL_append,
        countBlockForL_toList, countBlockForL, countBlockFor_addBreak]
      omega
  | _ => simp [countBlockFor, visitNode, Stmt.children, isBlockFor, countBlockForL_append,
        countBlockForL]

/-- The traversal, given fuel for the depth of the rewritten tree, returns
`true`, the tree rewritten as specified, and one line per block-bodied loop. -/
theorem TraverseStmt_eq : ∀ (fuel : Nat) (S : Stmt), depth (appendBreaks S) ≤ fuel →
    TraverseStmt fuel S = some (true, appendBreaks S, forLines (countBlockFor S)) := by
  intro fuel
  induction fuel with
  | zero =>
      intro S h
      have : 0 < depth (appendBreaks S) := by cases S <;> simp [appendBreaks, depth]
      omega
  | succ fuel ih =>
      intro S h
      have hc : ∀ c ∈ (visitNode S).children,
          TraverseStmt fuel c = some (true, appendBreaks c, forLines (countBlockFor c)) := by
        intro c hc
        apply ih
        have hm : appendBreaks c ∈ (appendBreaks S).children := by
          rw [children_appendBreaks]; exact List.mem_map_of_mem _ hc
        have := depth_child_lt _ hm
        omega
      have ht := traverseChildren_eq (TraverseStmt fuel) appendBreaks countBlockFor _ hc
      simp only [TraverseStmt, WalkUpFrom_eq, ht, setChildren_appendBreaks]
      rw [countBlockFor_children S, countBlockForL_eq_sum]
      simp [forLines_add]


theorem dropLastStmt_addBreak (B : Stmt) : dropLastStmt (addBreak B) = B := by
  cases B <;> simp [addBreak, dropLastStmt]

theorem stripLast_addBreak (B : Stmt) :
    dropLastStmt (stripLast (addBreak B)) = dropLastStmt (addBreak (stripLast B)) := by
  cases B <;> simp [addBreak, dropLastStmt, stripLast, stripLastL_eq_map]

mutual
/-- Deleting the last statement of each block-bodied `for` body undoes the
rewrite. -/
theorem stripLast_appendBreaks : ∀ S : Stmt, stripLast (appendBreaks S) = S
  | .CompoundStmt L R Body => by
      simp [appendBreaks, stripLast, stripLastL_appendBreaksL Body]
  | .ForStmt Init CondVar Cond Inc Body => by
      simp [appendBreaks, stripLast, stripLastO_appendBreaksO Init,
        stripLastO_appendBreaksO CondVar, stripLastO_appendBreaksO Cond,
        stripLastO_appendBreaksO Inc, stripLast_addBreak, stripLast_appendBreaks Body,
        dropLastStmt_addBreak]
  | .WhileStmt Cond Body => by
      simp [appendBreaks, stripLast, stripLast_appendBreaks Cond, stripLast_appendBreaks Body]
  | .DoStmt Body Cond => by
      simp [appendBreaks, stripLast, stripLast_appendBreaks Cond, stripLast_appendBreaks Body]
  | .CXXForRangeStmt Head Body => by
      simp [appendBreaks, stripLast, stripLastL_appendBreaksL Head, stripLast_appendBreaks Body]
  | .BreakStmt L => by simp [appendBreaks, stripLast]
  | .Other K Children => by simp [appendBreaks, stripLast, stripLastL_appendBreaksL Children]
  | .NestedDecl K N Children => by
      simp [appendBreaks, stripLast, stripLastL_appendBreaksL Children]
theorem stripLastL_appendBreaksL : ∀ Ss : List Stmt, stripLastL (appendBreaksL Ss) = Ss
  | [] => by simp [appendBreaksL, stripLastL]
  | S :: rest => by
      simp [appendBreaksL, stripLastL, stripLast_appendBreaks S, stripLastL_appendBreaksL rest]
theorem stripLastO_appendBreaksO : ∀ o : Option Stmt, stripLastO (appendBreaksO o) = o
  | none => by simp [appendBreaksO, stripLastO]
  | some S => by simp [appendBreaksO, stripLastO, stripLast_appendBreaks S]
end


theorem countBreak_addBreak (B : Stmt) :
    countBreak (addBreak B) = countBreak B + (if isBlock B then 1 else 0) := by
  cases B <;> simp [addBreak, countBreak, countBreakL_append, countBreakL, isBlock]

theorem isBlock_appendBreaks (S : Stmt) : isBlock (appendBreaks S) = isBlock S := by
  cases S <;> simp [appendBreaks, isBlock]

mutual
/-- The rewrite adds as many `break` statements as the tree has block-bodied
`for` loops. -/
theorem countBreak_appendBreaks :
    ∀ S : Stmt, countBreak (appendBreaks S) = countBreak S + countBlockFor S
  | .CompoundStmt L R Body => by
      simp [appendBreaks, countBreak, countBlockFor, countBreakL_appendBreaksL Body]
  | .ForStmt Init CondVar Cond Inc Body => by
      simp only [appendBreaks, countBreak, countBlockFor, countBreakO_appendBreaksO Init,
        countBreakO_appendBreaksO CondVar, countBreakO_appendBreaksO Cond,
        countBreakO_appendBreaksO Inc, countBreak_addBreak, countBreak_appendBreaks Body,
        isBlock_appendBreaks]
      omega
  | .WhileStmt Cond Body => by
      simp only [appendBreaks, countBreak, countBlockFor, countBreak_appendBreaks Cond,
        countBreak_appendBreaks Body]
      omega
  | .DoStmt Body Cond => by
      simp only [appendBreaks, countBreak, countBlockFor, countBreak_appendBreaks Cond,
        countBreak_appendBreaks Body]
      omega
  | .CXXForRangeStmt Head Body => by
      simp only [appendBreaks, countBreak, countBlockFor, countBreakL_appendBreaksL Head,
        countBreak_appendBreaks Body]
      omega
  | .BreakStmt L => by simp [appendBreaks, countBreak, countBlockFor]
  | .Other K Children => by
      simp [appendBreaks, countBreak, countBlockFor, countBreakL_appendBreaksL Children]
  | .NestedDecl K N Children => by
      simp [appendBreaks, countBreak, countBlockFor, countBreakL_appendBreaksL Children]
theorem countBreakL_appendBreaksL :
    ∀ Ss : List Stmt, countBreakL (appendBreaksL Ss) = countBreakL Ss + countBlockForL Ss
  | [] => by simp [appendBreaksL, countBreakL, countBlockForL]
  | S :: rest => by
      simp only [appendBreaksL, countBreakL, countBlockForL, countBreak_appendBreaks S,
        countBreakL_appendBreaksL rest]
      omega
theorem countBreakO_appendBreaksO :
    ∀ o : Option Stmt, countBreakO (appendBreaksO o) = countBreakO o + countBlockForO o
  | none => by simp [appendBreaksO, countBreakO, countBlockForO]
  | some S => by
      simp [appendBreaksO, countBreakO, countBlockForO, countBreak_appendBreaks S]
end

theorem depth_pos (S : Stmt) : 0 < depth S := by
  cases S <;> simp [depth]

theorem depth_addBreak_le (B : Stmt) : depth (addBreak B) ≤ max (depth B) 2 := by
  cases B <;> simp [addBreak, depth, depthL_append, depthL]
  omega

mutual
/-- The rewrite deepens a tree by at most one level. -/
theorem depth_appendBreaks_le : ∀ S : Stmt, depth (appendBreaks S) ≤ depth S + 1
  | .CompoundStmt L R Body => by
      have := depthL_appendBreaksL_le Body
      simp only [appendBreaks, depth]; omega
  | .ForStmt Init CondVar Cond Inc Body => by
      have h1 := depthO_appendBreaksO_le Init
      have h2 := depthO_appendBreaksO_le CondVar
      have h3 := depthO_appendBreaksO_le Cond
      have h4 := depthO_appendBreaksO_le Inc
      have h5 := depth_appendBreaks_le Body
      have h6 := depth_addBreak_le (appendBreaks Body)
      have h7 := depth_pos Body
      simp only [appendBreaks, depth]
      omega
  | .WhileStmt Cond Body => by
      have h1 := depth_appendBreaks_le Cond
      have h2 := depth_appendBreaks_le Body
      simp only [appendBreaks, depth]; omega
  | .DoStmt Body Cond => by
      have h1 := depth_appendBreaks_le Cond
      have h2 := depth_appendBreaks_le Body
      simp only [appendBreaks, depth]; omega
  | .CXXForRangeStmt Head Body => by
      have h1 := depthL_appendBreaksL_le Head
      have h2 := depth_appendBreaks_le Body
      simp only [appendBreaks, depth]; omega
  | .BreakStmt L => by simp [appendBreaks, depth]
  | .Other K Children => by
      have := depthL_appendBreaksL_le Children
      simp only [appendBreaks, depth]; omega
  | .NestedDecl K N Children => by
      have := depthL_appendBreaksL_le Children
      simp only [appendBreaks, depth]; omega
theorem depthL_appendBreaksL_le : ∀ Ss : List Stmt, depthL (appendBreaksL Ss) ≤ depthL Ss + 1
  | [] => by simp [appendBreaksL, depthL]
  | S :: rest => by
      have h1 := depth_appendBreaks_le S
      have h2 := depthL_appendBreaksL_le rest
      simp only [appendBreaksL, depthL]; omega
theorem depthO_appendBreaksO_le : ∀ o : Option Stmt, depthO (appendBreaksO o) ≤ depthO o + 1
  | none => by simp [appendBreaksO, depthO]
  | some S => by
      have h1 := depth_appendBreaks_le S
      simp only [appendBreaksO, depthO]; omega
end

mutual
/-- A tree without block-bodied `for` loops is left as it is by the rewrite. -/
theorem appendBreaks_of_count_zero : ∀ S : Stmt, countBlockFor S = 0 → appendBreaks S = S
  | .CompoundStmt L R Body => by
      intro h
      simp only [countBlockFor] at h
      simp [appendBreaks, appendBreaksL_of_count_zero Body h]
  | .ForStmt Init CondVar Cond Inc Body => by
      intro h
      simp only [countBlockFor] at h
      have hb : isBlock Body = false := by
        cases hB : isBlock Body
        · rfl
        · rw [hB] at h; simp at h
      have e1 := appendBreaksO_of_count_zero Init (by omega)
      have e2 := appendBreaksO_of_count_zero CondVar (by omega)
      have e3 := appendBreaksO_of_count_zero Cond (by omega)
      have e4 := appendBreaksO_of_count_zero Inc (by omega)
      have e5 := appendBreaks_of_count_zero Body (by omega)
      simp only [appendBreaks, e1, e2, e3, e4, e5]
      cases Body <;> simp_all [addBreak, isBlock]
  | .WhileStmt Cond Body => by
      intro h
      simp only [countBlockFor] at h
      simp [appendBreaks, appendBreaks_of_count_zero Cond (by omega),
        appendBreaks_of_count_zero Body (by omega)]
  | .DoStmt Body Cond => by
      intro h
      simp only [countBlockFor] at h
      simp [appendBreaks, appendBreaks_of_count_zero Cond (by omega),
        appendBreaks_of_count_zero Body (by omega)]
  | .CXXForRangeStmt Head Body => by
      intro h
      simp only [countBlockFor] at h
      simp [appendBreaks, appendBreaksL_of_count_zero Head (by omega),
        appendBreaks_of_count_zero Body (by omega)]
  | .BreakStmt L => by intro _; simp [appendBreaks]
  | .Other K Children => by
      intro h
      simp only [countBlockFor] at h
      simp [appendBreaks, appendBreaksL_of_count_zero Children h]
  | .NestedDecl K N Children => by
      intro h
      simp only [countBlockFor] at h
      simp [appendBreaks, appendBreaksL_of_count_zero Children h]
theorem appendBreaksL_of_count_zero :
    ∀ Ss : List Stmt, countBlockForL Ss = 0 → appendBreaksL Ss = Ss
  | [] => by intro _; simp [appendBreaksL]
  | S :: rest => by
      intro h
      simp only [countBlockForL] at h
      simp [appendBreaksL, appendBreaks_of_count_zero S (by omega),
        appendBreaksL_of_count_zero rest (by omega)]
theorem appendBreaksO_of_count_zero :
    ∀ o : Option Stmt, countBlockForO o = 0 → appendBreaksO o = o
  | none => by intro _; simp [appendBreaksO]
  | some S => by
      intro h
      simp only [countBlockForO] at h
      simp [appendBreaksO, appendBreaks_of_count_zero S h]
end


/-! ## Positions in a tree -/

theorem getElem?_append_swap {l : List Stmt} {b c : Stmt} {i : Nat} (b' : Stmt)
    (h : (l ++ [b])[i]? = some c) :
    (l ++ [b'])[i]? = some c ∨ (c = b ∧ (l ++ [b'])[i]? = some b') := by
  by_cases hi : i < l.length
  · left
    rw [List.getElem?_append_left hi] at h
    rw [List.getElem?_append_left hi]; exact h
  · right
    have hi' : l.length ≤ i := Nat.le_of_not_lt hi
    rw [List.getElem?_append_right hi'] at h
    rw [List.getElem?_append_right hi']
    cases hk : i - l.length with
    | zero => rw [hk] at h; simp at h; simp [h]
    | succ k => rw [hk] at h; simp at h

theorem visitNode_children_get {S c : Stmt} {i : Nat} (h : S.children[i]? = some c) :
    (visitNode S).children[i]? = some c ∨ (visitNode S).children[i]? = some (addBreak c) := by
  cases S with
  | ForStmt I CV C N B =>
      simp only [Stmt.children] at h
      simp only [visitNode, Stmt.children]
      rcases getElem?_append_swap (addBreak B) h with h1 | ⟨h1, h2⟩
      · exact Or.inl h1
      · right; rw [h1]; exact h2
  | _ => exact Or.inl h

theorem subAt_addBreak {q : List Nat} {T Y : Stmt} (h : subAt q T = some Y)
    (hY : q ≠ [] ∨ isBlock Y = false) : subAt q (addBreak T) = some Y := by
  cases T with
  | CompoundStmt L R B =>
      cases q with
      | nil =>
          simp only [subAt, Option.some.injEq] at h
          subst h
          simp [isBlock] at hY
      | cons j q =>
          simp only [subAt, Stmt.children, addBreak] at h ⊢
          cases hj : B[j]? with
          | none => rw [hj] at h; simp at h
          | some c =>
              rw [hj] at h
              have hlt : j < B.length := by
                by_contra hcon
                rw [List.getElem?_eq_none (Nat.le_of_not_lt hcon)] at hj
                cases hj
              rw [List.getElem?_append_left hlt, hj]
              exact h
  | _ => simpa [addBreak] using h

/-- A statement that is not a block sits, after the rewrite, at the position
it had before, and is the rewrite of what it was. -/
theorem subAt_appendBreaks : ∀ (p : List Nat) (S X : Stmt), subAt p S = some X →
    isBlock X = false → subAt p (appendBreaks S) = some (appendBreaks X) := by
  intro p
  induction p with
  | nil =>
      intro S X h _
      simp only [subAt, Option.some.injEq] at h
      subst h; rfl
  | cons i q ih =>
      intro S X h hX
      simp only [subAt] at h ⊢
      cases hc : S.children[i]? with
      | none => rw [hc] at h; simp at h
      | some c =>
          rw [hc] at h
          have hrec := ih c X h hX
          rw [children_appendBreaks, List.getElem?_map]
          rcases visitNode_children_get hc with h1 | h1
          · rw [h1]; simpa using hrec
          · rw [h1]
            simp only [Option.map_some']
            rw [addBreak_appendBreaks]
            exact subAt_addBreak hrec (Or.inr (by rw [isBlock_appendBreaks]; exact hX))

/-! ## The consumer on declarations, groups and files -/

theorem depthL_le_iff (cs : List Stmt) (n : Nat) :
    depthL cs ≤ n ↔ ∀ c ∈ cs, depth c ≤ n := by
  induction cs with
  | nil => simp [depthL]
  | cons S rest ih => simp [depthL, ih]

theorem depthL_children_le_groupDepth {D : Decl} {DG : List Decl} (h : D ∈ DG) :
    depthL D.Children ≤ groupDepth DG := by
  rw [depthL_le_iff]
  intro c hc
  apply depth_le_depthL
  exact List.mem_flatMap.2 ⟨D, h, hc⟩

theorem groupDepth_le_fileDepth {DG : List Decl} {file : List DeclGroupRef} (h : DG ∈ file) :
    groupDepth DG ≤ fileDepth file := by
  unfold groupDepth fileDepth groupDepth
  rw [depthL_le_iff]
  intro c hc
  apply depth_le_depthL
  rcases List.mem_flatMap.1 hc with ⟨D, hD, hcD⟩
  exact List.mem_flatMap.2 ⟨D, List.mem_flatten.2 ⟨DG, h, hD⟩, hcD⟩

theorem TraverseDecl_eq (fuel : Nat) (D : Decl) (h : depthL D.Children < fuel) :
    TraverseDecl fuel D
      = some (true, rewriteDecl D, forLines (countBlockForL D.Children)) := by
  have hc : ∀ c ∈ D.Children,
      TraverseStmt fuel c = some (true, appendBreaks c, forLines (countBlockFor c)) := by
    intro c hc
    apply TraverseStmt_eq
    have h1 := depth_appendBreaks_le c
    have h2 := depth_le_depthL hc
    omega
  have ht := traverseChildren_eq (TraverseStmt fuel) appendBreaks countBlockFor _ hc
  simp only [TraverseDecl, ht, rewriteDecl, countBlockForL_eq_sum]

theorem handleDecl_eq (fuel : Nat) (D : Decl) (h : depthL D.Children < fuel) :
    handleDecl fuel D = some (specDecl D, specLines D) := by
  unfold handleDecl specDecl specLines
  cases hN : D.Name with
  | none => simp
  | some name =>
      by_cases hm : name = "main"
      · subst hm
        simp [TraverseDecl_eq fuel D h]
      · simp [hm]

theorem handleDecls_eq (fuel : Nat) : ∀ DG : List Decl, groupDepth DG < fuel →
    handleDecls fuel DG = some (DG.map specDecl, (DG.map specLines).flatten) := by
  intro DG
  induction DG with
  | nil => intro _; simp [handleDecls]
  | cons D rest ih =>
      intro h
      have h1 : depthL D.Children < fuel :=
        lt_of_le_of_lt (depthL_children_le_groupDepth (List.mem_cons_self _ _)) h
      have h2 : groupDepth rest < fuel := by
        refine lt_of_le_of_lt ?_ h
        unfold groupDepth
        rw [depthL_le_iff]
        intro c hc
        apply depth_le_depthL
        rcases List.mem_flatMap.1 hc with ⟨D', hD', hcD⟩
        exact List.mem_flatMap.2 ⟨D', List.mem_cons_of_mem _ hD', hcD⟩
      simp [handleDecls, handleDecl_eq fuel D h1, ih h2]

theorem HandleTopLevelDecl_eq (fuel : Nat) (DG : DeclGroupRef) (h : groupDepth DG < fuel) :
    HandleTopLevelDecl fuel DG
      = some (true, DG.map specDecl, (DG.map specLines).flatten) := by
  simp [HandleTopLevelDecl, handleDecls_eq fuel DG h]

theorem ParseAST_eq (fuel : Nat) : ∀ file : List DeclGroupRef, fileDepth file < fuel →
    ParseAST fuel file
      = some (file.map (List.map specDecl), (file.map groupLines).flatten) := by
  intro file
  induction file with
  | nil => intro _; simp [ParseAST]
  | cons DG rest ih =>
      intro h
      have h1 : groupDepth DG < fuel :=
        lt_of_le_of_lt (groupDepth_le_fileDepth (List.mem_cons_self _ _)) h
      have h2 : fileDepth rest < fuel := by
        refine lt_of_le_of_lt ?_ h
        unfold fileDepth groupDepth
        rw [depthL_le_iff]
        intro c hc
        apply depth_le_depthL
        rcases List.mem_flatMap.1 hc with ⟨D', hD', hcD⟩
        rcases List.mem_flatten.1 hD' with ⟨G, hG, hDG⟩
        exact List.mem_flatMap.2
          ⟨D', List.mem_flatten.2 ⟨G, List.mem_cons_of_mem _ hG, hDG⟩, hcD⟩
      simp [ParseAST, HandleTopLevelDecl_eq fuel DG h1, ih h2, groupLines]


/-! ## The claims -/

/-- C1, as stated, fails: in `main`, the block of the outer loop of
`for(;;){ for(;;){ x=1; } }` has one statement; after processing it has two,
but the first is `for(;;){ x=1; break; }`, not the original
`for(;;){ x=1; }`. -/
theorem C1_counterexample :
    (functionDecl "main" [loopNested]).subAt [0, 0]
        = some (.ForStmt none none none none (.CompoundStmt 3 8 [loopInner]))
      ∧ ParseAST 7 [[functionDecl "main" [loopNested]]]
        = some ([[functionDecl "main"
              [.ForStmt none none none none
                (.CompoundStmt 3 8 [loopInnerAfter, .BreakStmt 8])]]],
            ["inside main()\n", "inside for loop\n", "inside for loop\n"])
      ∧ (functionDecl "main"
            [.ForStmt none none none none
              (.CompoundStmt 3 8 [loopInnerAfter, .BreakStmt 8])]).subAt [0, 0]
        = some (.ForStmt none none none none
            (.CompoundStmt 3 8 [loopInnerAfter, .BreakStmt 8]))
      ∧ [loopInnerAfter, Stmt.BreakStmt 8].take 1 ≠ [loopInner] := by
  refine ⟨rfl, rfl, rfl, ?_⟩
  simp [loopInnerAfter, loopInner]

/-- C1, amended: for a file holding a top-level declaration named `main` with
a `for` loop whose body is a block of N statements, after processing that
block has N+1 statements; the first N are the original statements in order,
each with the block-bodied `for` loops inside it rewritten in the same way
(so identical to the originals when they hold no such loop), and the last is
a `break`. -/
theorem C1_main_block_loop_gets_break (file : List DeclGroupRef) (fuel i j : Nat)
    (DG : DeclGroupRef) (D : Decl) (p : List Nat) (Init CondVar Cond Inc : Option Stmt)
    (L R : SourceLocation) (Body : List Stmt)
    (hfuel : fileDepth file < fuel) (hDG : file[i]? = some DG) (hD : DG[j]? = some D)
    (hmain : D.Name = some "main")
    (hfor : D.subAt p = some (.ForStmt Init CondVar Cond Inc (.CompoundStmt L R Body))) :
    ∃ (file1 : List DeclGroupRef) (errs : List String) (DG1 : DeclGroupRef) (D1 : Decl)
      (Body1 : List Stmt),
      ParseAST fuel file = some (file1, errs) ∧ file1[i]? = some DG1 ∧ DG1[j]? = some D1
        ∧ D1.subAt p = some (.ForStmt (Init.map appendBreaks) (CondVar.map appendBreaks)
            (Cond.map appendBreaks) (Inc.map appendBreaks) (.CompoundStmt L R Body1))
        ∧ Body1.length = Body.length + 1
        ∧ Body1.take Body.length = Body.map appendBreaks
        ∧ Body1[Body.length]? = some (.BreakStmt R)
        ∧ (countBlockForL Body = 0 → Body1.take Body.length = Body) := by
  refine ⟨_, _, DG.map specDecl, specDecl D, Body.map appendBreaks ++ [.BreakStmt R],
    ParseAST_eq fuel file hfuel, ?_, ?_, ?_, ?_, ?_, ?_, ?_⟩
  · simp [hDG]
  · simp [hD]
  · cases p with
    | nil => simp [Decl.subAt] at hfor
    | cons k q =>
        simp only [Decl.subAt, specDecl, hmain, if_true, rewriteDecl] at hfor ⊢
        cases hk : D.Children[k]? with
        | none => rw [hk] at hfor; simp at hfor
        | some c =>
            rw [hk] at hfor
            have := subAt_appendBreaks q c _ hfor rfl
            simp only [List.getElem?_map, hk, Option.map_some']
            rw [this]
            simp [appendBreaks, appendBreaksO_eq_map, addBreak, appendBreaksL_eq_map]
  · simp
  · simp
  · simp
  · intro h0
    have := appendBreaksL_of_count_zero Body h0
    rw [appendBreaksL_eq_map] at this
    simp [this]

/-- The spec's example: in `main`, `for(int i=0;i<10;i++){ x=1; }` becomes
`for(int i=0;i<10;i++){ x=1; break; }`. -/
theorem C1_witness :
    ∃ (file1 : List DeclGroupRef) (errs : List String) (DG1 : DeclGroupRef) (D1 : Decl)
      (Body1 : List Stmt),
      ParseAST 5 [[functionDecl "main" [loopBraced]]] = some (file1, errs)
        ∧ file1[0]? = some DG1 ∧ DG1[0]? = some D1
        ∧ D1.subAt [0, 0] = some (.ForStmt
            ((some (Stmt.Other "int i=0" [])).map appendBreaks)
            ((none : Option Stmt).map appendBreaks)
            ((some (Stmt.Other "i<10" [])).map appendBreaks)
            ((some (Stmt.Other "i++" [])).map appendBreaks) (.CompoundStmt 3 8 Body1))
        ∧ Body1.length = [stmtX].length + 1
        ∧ Body1.take [stmtX].length = [stmtX].map appendBreaks
        ∧ Body1[[stmtX].length]? = some (.BreakStmt 8)
        ∧ (countBlockForL [stmtX] = 0 → Body1.take [stmtX].length = [stmtX]) :=
  C1_main_block_loop_gets_break [[functionDecl "main" [loopBraced]]] 5 0 0
    [functionDecl "main" [loopBraced]] (functionDecl "main" [loopBraced]) [0, 0]
    (some (.Other "int i=0" [])) none (some (.Other "i<10" [])) (some (.Other "i++" []))
    3 8 [stmtX] (by decide) rfl rfl rfl rfl


/-- C2, as stated, fails: in `main`, the outer loop of
`for(;;) for(;;){ x=1; }` has a body that is not a block, yet after processing
its body is `for(;;){ x=1; break; }`, not the original `for(;;){ x=1; }`. -/
theorem C2_counterexample :
    (functionDecl "main" [loopOverLoop]).subAt [0, 0]
        = some (.ForStmt none none none none loopInner)
      ∧ isBlock loopInner = false
      ∧ ParseAST 6 [[functionDecl "main" [loopOverLoop]]]
        = some ([[functionDecl "main" [.ForStmt none none none none loopInnerAfter]]],
            ["inside main()\n", "inside for loop\n"])
      ∧ (functionDecl "main" [.ForStmt none none none none loopInnerAfter]).subAt [0, 0]
        = some (.ForStmt none none none none loopInnerAfter)
      ∧ loopInnerAfter ≠ loopInner := by
  refine ⟨rfl, rfl, rfl, rfl, ?_⟩
  simp [loopInnerAfter, loopInner]

/-- C2, amended: for a `for` loop of `main` whose body is not a block, the
visit of the loop changes nothing and writes nothing; after processing the
loop is at its place, its body is still not a block and has received no
`break` of its own, and body and loop are the same as before whenever they
hold no block-bodied `for` loop (loops nested in them are rewritten as any
other). -/
theorem C2_bare_loop_not_rewritten (file : List DeclGroupRef) (fuel i j : Nat)
    (DG : DeclGroupRef) (D : Decl) (p : List Nat) (Init CondVar Cond Inc : Option Stmt)
    (Body : Stmt)
    (hfuel : fileDepth file < fuel) (hDG : file[i]? = some DG) (hD : DG[j]? = some D)
    (hmain : D.Name = some "main")
    (hfor : D.subAt p = some (.ForStmt Init CondVar Cond Inc Body))
    (hbare : isBlock Body = false) :
    VisitForStmt Init CondVar Cond Inc Body
        = some (true, .ForStmt Init CondVar Cond Inc Body, [])
      ∧ ∃ (file1 : List DeclGroupRef) (errs : List String) (DG1 : DeclGroupRef) (D1 : Decl),
        ParseAST fuel file = some (file1, errs) ∧ file1[i]? = some DG1 ∧ DG1[j]? = some D1
          ∧ D1.subAt p = some (.ForStmt (Init.map appendBreaks) (CondVar.map appendBreaks)
              (Cond.map appendBreaks) (Inc.map appendBreaks) (appendBreaks Body))
          ∧ isBlock (appendBreaks Body) = false
          ∧ (countBlockFor Body = 0 → appendBreaks Body = Body)
          ∧ (countBlockFor (.ForStmt Init CondVar Cond Inc Body) = 0 →
              D1.subAt p = some (.ForStmt Init CondVar Cond Inc Body)) := by
  have hsub : (specDecl D).subAt p = some (appendBreaks (.ForStmt Init CondVar Cond Inc Body)) := by
    cases p with
    | nil => simp [Decl.subAt] at hfor
    | cons k q =>
        simp only [Decl.subAt, specDecl, hmain, if_true, rewriteDecl] at hfor ⊢
        cases hk : D.Children[k]? with
        | none => rw [hk] at hfor; simp at hfor
        | some c =>
            rw [hk] at hfor
            have := subAt_appendBreaks q c _ hfor rfl
            simp only [List.getElem?_map, hk, Option.map_some']
            exact this
  have hadd : addBreak (appendBreaks Body) = appendBreaks Body := by
    have := isBlock_appendBreaks Body
    rw [hbare] at this
    cases hB : appendBreaks Body <;> simp_all [addBreak, isBlock]
  refine ⟨?_, _, _, DG.map specDecl, specDecl D, ParseAST_eq fuel file hfuel, ?_, ?_, ?_, ?_,
    ?_, ?_⟩
  · cases Body <;> simp_all [VisitForStmt, isBlock]
  · simp [hDG]
  · simp [hD]
  · rw [hsub]
    simp [appendBreaks, appendBreaksO_eq_map, hadd]
  · rw [isBlock_appendBreaks]; exact hbare
  · exact appendBreaks_of_count_zero Body
  · intro h0
    rw [hsub, appendBreaks_of_count_zero _ h0]

/-- The spec's example: in `main`, `for(int i=0;i<10;i++) x=1;` is unchanged. -/
theorem C2_witness :
    VisitForStmt (some (.Other "int i=0" [])) none (some (.Other "i<10" []))
        (some (.Other "i++" [])) stmtX
        = some (true, .ForStmt (some (.Other "int i=0" [])) none (some (.Other "i<10" []))
            (some (.Other "i++" [])) stmtX, [])
      ∧ ∃ (file1 : List DeclGroupRef) (errs : List String) (DG1 : DeclGroupRef) (D1 : Decl),
        ParseAST 4 [[functionDecl "main" [loopBare]]] = some (file1, errs)
          ∧ file1[0]? = some DG1 ∧ DG1[0]? = some D1
          ∧ D1.subAt [0, 0] = some (.ForStmt
              ((some (Stmt.Other "int i=0" [])).map appendBreaks)
              ((none : Option Stmt).map appendBreaks)
              ((some (Stmt.Other "i<10" [])).map appendBreaks)
              ((some (Stmt.Other "i++" [])).map appendBreaks) (appendBreaks stmtX))
          ∧ isBlock (appendBreaks stmtX) = false
          ∧ (countBlockFor stmtX = 0 → appendBreaks stmtX = stmtX)
          ∧ (countBlockFor (.ForStmt (some (.Other "int i=0" [])) none (some (.Other "i<10" []))
                (some (.Other "i++" [])) stmtX) = 0 →
              D1.subAt [0, 0] = some (.ForStmt (some (.Other "int i=0" [])) none
                (some (.Other "i<10" [])) (some (.Other "i++" [])) stmtX)) :=
  C2_bare_loop_not_rewritten [[functionDecl "main" [loopBare]]] 4 0 0
    [functionDecl "main" [loopBare]] (functionDecl "main" [loopBare]) [0, 0]
    (some (.Other "int i=0" [])) none (some (.Other "i<10" [])) (some (.Other "i++" []))
    stmtX (by decide) rfl rfl rfl rfl rfl

/-- C3: with fuel beyond the depth of the tree, the traversal of a statement
tree returns `true` with every block-bodied `for` loop, at every nesting
depth, given exactly one `break`: the result is the tree rewritten as
specified; each such loop is found at its place with its block extended by one
`break` at the closing brace, the loops nested in that block being rewritten
in turn; one line is written per block-bodied loop, so each is visited exactly
once; and the number of `break` statements grows by the number of
block-bodied `for` loops of the original tree. -/
theorem C3_nested_loops_each_get_one_break (fuel : Nat) (S : Stmt) (hfuel : depth S < fuel) :
    TraverseStmt fuel S = some (true, appendBreaks S, forLines (countBlockFor S))
      ∧ (forLines (countBlockFor S)).length = countBlockFor S
      ∧ countBreak (appendBreaks S) = countBreak S + countBlockFor S
      ∧ ∀ (p : List Nat) (Init CondVar Cond Inc : Option Stmt) (L R : SourceLocation)
          (Body : List Stmt),
          subAt p S = some (.ForStmt Init CondVar Cond Inc (.CompoundStmt L R Body)) →
          subAt p (appendBreaks S) = some (.ForStmt (Init.map appendBreaks)
            (CondVar.map appendBreaks) (Cond.map appendBreaks) (Inc.map appendBreaks)
            (.CompoundStmt L R (Body.map appendBreaks ++ [.BreakStmt R]))) := by
  refine ⟨TraverseStmt_eq fuel S ?_, by simp [forLines], countBreak_appendBreaks S, ?_⟩
  · have := depth_appendBreaks_le S
    omega
  · intro p Init CondVar Cond Inc L R Body h
    rw [subAt_appendBreaks p S _ h rfl]
    simp [appendBreaks, appendBreaksO_eq_map, addBreak, appendBreaksL_eq_map]

/-- The loop `for(;;){ for(;;){ x=1; } }`: both loops receive one `break`. -/
theorem C3_witness :
    TraverseStmt 6 loopNested
        = some (true, appendBreaks loopNested, forLines (countBlockFor loopNested))
      ∧ (forLines (countBlockFor loopNested)).length = countBlockFor loopNested
      ∧ countBreak (appendBreaks loopNested) = countBreak loopNested + countBlockFor loopNested
      ∧ ∀ (p : List Nat) (Init CondVar Cond Inc : Option Stmt) (L R : SourceLocation)
          (Body : List Stmt),
          subAt p loopNested = some (.ForStmt Init CondVar Cond Inc (.CompoundStmt L R Body)) →
          subAt p (appendBreaks loopNested) = some (.ForStmt (Init.map appendBreaks)
            (CondVar.map appendBreaks) (Cond.map appendBreaks) (Inc.map appendBreaks)
            (.CompoundStmt L R (Body.map appendBreaks ++ [.BreakStmt R]))) :=
  C3_nested_loops_each_get_one_break 6 loopNested (by decide)


/-- C4, as stated, fails: in `namespace main { void f() { for(;;){ x=1; } } }`
the loop lies inside the function `f`, which is not `main`; the top-level
declaration is a named entity called `main`, so the visitor runs over it and
the body of the loop becomes `{ x=1; break; }`. -/
theorem C4_counterexample :
    namespaceMain.subAt [0]
        = some (.NestedDecl .Function (some "f") [.CompoundStmt 1 9 [loopInner]])
      ∧ namespaceMain.subAt [0, 0, 0]
        = some (.ForStmt none none none none (.CompoundStmt 4 7 [stmtX]))
      ∧ ParseAST 6 [[namespaceMain]]
        = some ([[namespaceMainAfter]], ["inside main()\n", "inside for loop\n"])
      ∧ namespaceMainAfter.subAt [0, 0, 0]
        = some (.ForStmt none none none none (.CompoundStmt 4 7 [stmtX, .BreakStmt 7]))
      ∧ Stmt.CompoundStmt 4 7 [stmtX, .BreakStmt 7] ≠ Stmt.CompoundStmt 4 7 [stmtX] := by
  refine ⟨rfl, rfl, rfl, rfl, ?_⟩
  simp

/-- C4, amended: for every top-level declaration that is not a named entity
called `main`, the transform never fires: after `HandleTopLevelDecl` has
processed every declaration group of the file, the declaration is the same as
before, and so is every `for` loop located inside it. -/
theorem C4_transform_limited_to_main (file : List DeclGroupRef) (fuel i j : Nat)
    (DG : DeclGroupRef) (D : Decl)
    (hfuel : fileDepth file < fuel) (hDG : file[i]? = some DG) (hD : DG[j]? = some D)
    (hname : D.Name ≠ some "main") :
    ∃ (file1 : List DeclGroupRef) (errs : List String) (DG1 : DeclGroupRef) (D1 : Decl),
      ParseAST fuel file = some (file1, errs) ∧ file1[i]? = some DG1 ∧ DG1[j]? = some D1
        ∧ D1 = D ∧ (∀ p : List Nat, D1.subAt p = D.subAt p)
        ∧ handleDecl fuel D = some (D, []) := by
  have hs : specDecl D = D := by simp [specDecl, hname]
  refine ⟨_, _, DG.map specDecl, D, ParseAST_eq fuel file hfuel, ?_, ?_, rfl, fun _ => rfl, ?_⟩
  · simp [hDG]
  · simp [hD, hs]
  · unfold handleDecl
    cases hN : D.Name with
    | none => rfl
    | some name =>
        have : name ≠ "main" := by
          intro h; apply hname; rw [hN, h]
        simp [this]

/-- A file with `f` and `main`, both holding `for(int i=0;i<10;i++){ x=1; }`:
`f` is left as it was. -/
theorem C4_witness :
    ∃ (file1 : List DeclGroupRef) (errs : List String) (DG1 : DeclGroupRef) (D1 : Decl),
      ParseAST 5 [[functionDecl "f" [loopBraced]], [functionDecl "main" [loopBraced]]]
          = some (file1, errs)
        ∧ file1[0]? = some DG1 ∧ DG1[0]? = some D1
        ∧ D1 = functionDecl "f" [loopBraced]
        ∧ (∀ p : List Nat, D1.subAt p = (functionDecl "f" [loopBraced]).subAt p)
        ∧ handleDecl 5 (functionDecl "f" [loopBraced])
            = some (functionDecl "f" [loopBraced], []) :=
  C4_transform_limited_to_main
    [[functionDecl "f" [loopBraced]], [functionDecl "main" [loopBraced]]] 5 0 0
    [functionDecl "f" [loopBraced]] (functionDecl "f" [loopBraced])
    (by decide) rfl rfl (by decide)

/-- C5: `HandleTopLevelDecl`, with fuel beyond the depth of the group, returns
the group in which exactly the declarations that are named entities called
`main` have been run through the visitor, and writes lines for those only;
every other declaration (unnamed, or named `Main`, `main2`, the empty name or
anything else) is left as it is and writes nothing, whatever the fuel. -/
theorem C5_visitor_runs_on_main_only (fuel : Nat) (DG : DeclGroupRef)
    (hfuel : groupDepth DG < fuel) :
    HandleTopLevelDecl fuel DG
        = some (true,
            DG.map (fun D => if D.Name = some "main" then rewriteDecl D else D),
            (DG.map (fun D => if D.Name = some "main"
              then "inside main()\n" :: forLines (countBlockForL D.Children) else [])).flatten)
      ∧ (∀ D ∈ DG, D.Name = some "main" →
          TraverseDecl fuel D
              = some (true, rewriteDecl D, forLines (countBlockForL D.Children))
            ∧ handleDecl fuel D
              = some (rewriteDecl D, "inside main()\n" :: forLines (countBlockForL D.Children)))
      ∧ (∀ (anyFuel : Nat) (D : Decl), D.Name ≠ some "main" →
          handleDecl anyFuel D = some (D, []))
      ∧ (∀ (anyFuel : Nat) (K : DeclKind) (Cs : List Stmt),
          handleDecl anyFuel ⟨K, none, Cs⟩ = some (⟨K, none, Cs⟩, [])
            ∧ handleDecl anyFuel ⟨K, some "Main", Cs⟩ = some (⟨K, some "Main", Cs⟩, [])
            ∧ handleDecl anyFuel ⟨K, some "main2", Cs⟩ = some (⟨K, some "main2", Cs⟩, [])
            ∧ handleDecl anyFuel ⟨K, some "", Cs⟩ = some (⟨K, some "", Cs⟩, [])) := by
  have hother : ∀ (anyFuel : Nat) (D : Decl), D.Name ≠ some "main" →
      handleDecl anyFuel D = some (D, []) := by
    intro anyFuel D hname
    unfold handleDecl
    cases hN : D.Name with
    | none => rfl
    | some name =>
        have : name ≠ "main" := by
          intro h; apply hname; rw [hN, h]
        simp [this]
  refine ⟨?_, ?_, hother, ?_⟩
  · rw [HandleTopLevelDecl_eq fuel DG hfuel]
    rfl
  · intro D hD hmain
    have hd : depthL D.Children < fuel :=
      lt_of_le_of_lt (depthL_children_le_groupDepth hD) hfuel
    refine ⟨TraverseDecl_eq fuel D hd, ?_⟩
    rw [handleDecl_eq fuel D hd]
    simp [specDecl, specLines, hmain]
  · intro anyFuel K Cs
    exact ⟨hother _ _ (by simp), hother _ _ (by simp), hother _ _ (by simp),
      hother _ _ (by simp)⟩

/-- The group `f, main`, both holding `for(int i=0;i<10;i++){ x=1; }`. -/
theorem C5_witness :
    HandleTopLevelDecl 5 [functionDecl "f" [loopBraced], functionDecl "main" [loopBraced]]
        = some (true,
            [functionDecl "f" [loopBraced], functionDecl "main" [loopBraced]].map
              (fun D => if D.Name = some "main" then rewriteDecl D else D),
            ([functionDecl "f" [loopBraced], functionDecl "main" [loopBraced]].map
              (fun D => if D.Name = some "main"
                then "inside main()\n" :: forLines (countBlockForL D.Children) else [])).flatten)
      ∧ (∀ D ∈ [functionDecl "f" [loopBraced], functionDecl "main" [loopBraced]],
          D.Name = some "main" →
          TraverseDecl 5 D
              = some (true, rewriteDecl D, forLines (countBlockForL D.Children))
            ∧ handleDecl 5 D
              = some (rewriteDecl D, "inside main()\n" :: forLines (countBlockForL D.Children)))
      ∧ (∀ (anyFuel : Nat) (D : Decl), D.Name ≠ some "main" →
          handleDecl anyFuel D = some (D, []))
      ∧ (∀ (anyFuel : Nat) (K : DeclKind) (Cs : List Stmt),
          handleDecl anyFuel ⟨K, none, Cs⟩ = some (⟨K, none, Cs⟩, [])
            ∧ handleDecl anyFuel ⟨K, some "Main", Cs⟩ = some (⟨K, some "Main", Cs⟩, [])
            ∧ handleDecl anyFuel ⟨K, some "main2", Cs⟩ = some (⟨K, some "main2", Cs⟩, [])
            ∧ handleDecl anyFuel ⟨K, some "", Cs⟩ = some (⟨K, some "", Cs⟩, [])) :=
  C5_visitor_runs_on_main_only 5
    [functionDecl "f" [loopBraced], functionDecl "main" [loopBraced]] (by decide)


/-- C6: for every rewritten `for` loop, the new block has the opening and
closing brace locations of the original block, and the `break` appended to it
carries the original block's end location, which is its closing brace
location; this is so right after the visit and still so after the traversal
of the loop. -/
theorem C6_brace_locations_reused (fuel : Nat) (Init CondVar Cond Inc : Option Stmt)
    (L R : SourceLocation) (Body : List Stmt)
    (hfuel : depth (.ForStmt Init CondVar Cond Inc (.CompoundStmt L R Body)) < fuel) :
    VisitForStmt Init CondVar Cond Inc (.CompoundStmt L R Body)
        = some (true,
            .ForStmt Init CondVar Cond Inc
              (.CompoundStmt L R (Body ++ [.BreakStmt (getEndLoc L R)])),
            ["inside for loop\n"])
      ∧ getEndLoc L R = R
      ∧ ∃ errs : List String,
          TraverseStmt fuel (.ForStmt Init CondVar Cond Inc (.CompoundStmt L R Body))
            = some (true,
                .ForStmt (Init.map appendBreaks) (CondVar.map appendBreaks)
                  (Cond.map appendBreaks) (Inc.map appendBreaks)
                  (.CompoundStmt L R (Body.map appendBreaks ++ [.BreakStmt R])),
                errs) := by
  have hd := depth_appendBreaks_le (.ForStmt Init CondVar Cond Inc (.CompoundStmt L R Body))
  refine ⟨VisitForStmt_block Init CondVar Cond Inc L R Body, rfl,
    forLines (countBlockFor (.ForStmt Init CondVar Cond Inc (.CompoundStmt L R Body))), ?_⟩
  rw [TraverseStmt_eq fuel _ (by omega)]
  simp [appendBreaks, appendBreaksO_eq_map, addBreak, appendBreaksL_eq_map]

/-- The loop `for(int i=0;i<10;i++){ x=1; }` with braces at 3 and 8: the new
block has braces at 3 and 8 and the `break` is at 8. -/
theorem C6_witness :
    VisitForStmt (some (.Other "int i=0" [])) none (some (.Other "i<10" []))
        (some (.Other "i++" [])) (.CompoundStmt 3 8 [stmtX])
        = some (true,
            .ForStmt (some (.Other "int i=0" [])) none (some (.Other "i<10" []))
              (some (.Other "i++" []))
              (.CompoundStmt 3 8 ([stmtX] ++ [.BreakStmt (getEndLoc 3 8)])),
            ["inside for loop\n"])
      ∧ getEndLoc 3 8 = 8
      ∧ ∃ errs : List String,
          TraverseStmt 4 (.ForStmt (some (.Other "int i=0" [])) none (some (.Other "i<10" []))
              (some (.Other "i++" [])) (.CompoundStmt 3 8 [stmtX]))
            = some (true,
                .ForStmt ((some (Stmt.Other "int i=0" [])).map appendBreaks)
                  ((none : Option Stmt).map appendBreaks)
                  ((some (Stmt.Other "i<10" [])).map appendBreaks)
                  ((some (Stmt.Other "i++" [])).map appendBreaks)
                  (.CompoundStmt 3 8 ([stmtX].map appendBreaks ++ [.BreakStmt 8])),
                errs) :=
  C6_brace_locations_reused 4 (some (.Other "int i=0" [])) none (some (.Other "i<10" []))
    (some (.Other "i++" [])) 3 8 [stmtX] (by decide)

/-- C7: processing one top-level declaration, with fuel beyond its depth,
writes for a declaration named `main` the line `inside main()` followed by
one line `inside for loop` per block-bodied `for` loop of its subtree and
nothing else, and for any other declaration nothing; the visit of a `for`
loop writes one line when the body is a block and none otherwise; so the
number of `inside for loop` lines is the number of block-bodied `for` loops. -/
theorem C7_trace_lines (fuel : Nat) (D : Decl) (hfuel : depthL D.Children < fuel) :
    (∃ D1 : Decl, handleDecl fuel D
        = some (D1, if D.Name = some "main"
            then "inside main()\n"
              :: List.replicate (countBlockForL D.Children) "inside for loop\n"
            else []))
      ∧ (List.replicate (countBlockForL D.Children) "inside for loop\n").length
          = countBlockForL D.Children
      ∧ ∀ (Init CondVar Cond Inc : Option Stmt) (Body : Stmt),
          ∃ FS : Stmt, VisitForStmt Init CondVar Cond Inc Body
            = some (true, FS, if isBlock Body then ["inside for loop\n"] else []) := by
  refine ⟨⟨specDecl D, ?_⟩, by simp, ?_⟩
  · rw [handleDecl_eq fuel D hfuel]
    rfl
  · intro Init CondVar Cond Inc Body
    cases Body with
    | CompoundStmt L R CS => exact ⟨_, by rw [VisitForStmt_block]; rfl⟩
    | _ => exact ⟨_, rfl⟩

/-- The function `main` holding a braced and a bare loop: the line for `main`
and one line for the braced loop. -/
theorem C7_witness :
    (∃ D1 : Decl, handleDecl 5 (functionDecl "main" [loopBraced, loopBare])
        = some (D1, if (functionDecl "main" [loopBraced, loopBare]).Name = some "main"
            then "inside main()\n"
              :: List.replicate
                (countBlockForL (functionDecl "main" [loopBraced, loopBare]).Children)
                "inside for loop\n"
            else []))
      ∧ (List.replicate (countBlockForL (functionDecl "main" [loopBraced, loopBare]).Children)
            "inside for loop\n").length
          = countBlockForL (functionDecl "main" [loopBraced, loopBare]).Children
      ∧ ∀ (Init CondVar Cond Inc : Option Stmt) (Body : Stmt),
          ∃ FS : Stmt, VisitForStmt Init CondVar Cond Inc Body
            = some (true, FS, if isBlock Body then ["inside for loop\n"] else []) :=
  C7_trace_lines 5 (functionDecl "main" [loopBraced, loopBare]) (by decide)

/-- C8: the plugin never reports failure nor asks to stop: with fuel beyond
the depth of the group, `HandleTopLevelDecl` returns `true` (and with any fuel
it never returns `false`); `VisitForStmt` returns `true` for every `for`
statement, so that the traversal of every declaration of the group returns
`true`, never cut short; and `ParseArgs` returns `true` for every argument
list. -/
theorem C8_never_reports_failure (fuel : Nat) (DG : DeclGroupRef) (args : List String)
    (hfuel : groupDepth DG < fuel) :
    (∃ (DG1 : DeclGroupRef) (errs : List String),
        HandleTopLevelDecl fuel DG = some (true, DG1, errs))
      ∧ (∀ (anyFuel : Nat) (anyDG : DeclGroupRef) (r : Outcome DeclGroupRef),
          HandleTopLevelDecl anyFuel anyDG = some r → r.1 = true)
      ∧ (∀ (Init CondVar Cond Inc : Option Stmt) (Body : Stmt),
          ∃ (FS : Stmt) (errs : List String),
            VisitForStmt Init CondVar Cond Inc Body = some (true, FS, errs))
      ∧ (∀ D ∈ DG, ∃ (D1 : Decl) (errs : List String),
          TraverseDecl fuel D = some (true, D1, errs))
      ∧ ParseArgs args = true := by
  refine ⟨⟨_, _, HandleTopLevelDecl_eq fuel DG hfuel⟩, ?_, ?_, ?_, rfl⟩
  · intro anyFuel anyDG r h
    unfold HandleTopLevelDecl at h
    cases hh : handleDecls anyFuel anyDG with
    | none => rw [hh] at h; simp at h
    | some v =>
        rw [hh] at h
        simp only [Option.some.injEq] at h
        rw [← h]
  · intro Init CondVar Cond Inc Body
    cases Body with
    | CompoundStmt L R CS => exact ⟨_, _, VisitForStmt_block Init CondVar Cond Inc L R CS⟩
    | _ => exact ⟨_, _, rfl⟩
  · intro D hD
    exact ⟨_, _, TraverseDecl_eq fuel D
      (lt_of_le_of_lt (depthL_children_le_groupDepth hD) hfuel)⟩

/-- The group `f, main`, where `f` holds `for(int i=0;i<10;i++){ x=1; }` and
`main` holds `for(;;){ for(;;){ x=1; } }`, and the argument list `-help`. -/
theorem C8_witness :
    (∃ (DG1 : DeclGroupRef) (errs : List String),
        HandleTopLevelDecl 7 [functionDecl "f" [loopBraced], functionDecl "main" [loopNested]]
          = some (true, DG1, errs))
      ∧ (∀ (anyFuel : Nat) (anyDG : DeclGroupRef) (r : Outcome DeclGroupRef),
          HandleTopLevelDecl anyFuel anyDG = some r → r.1 = true)
      ∧ (∀ (Init CondVar Cond Inc : Option Stmt) (Body : Stmt),
          ∃ (FS : Stmt) (errs : List String),
            VisitForStmt Init CondVar Cond Inc Body = some (true, FS, errs))
      ∧ (∀ D ∈ [functionDecl "f" [loopBraced], functionDecl "main" [loopNested]],
          ∃ (D1 : Decl) (errs : List String), TraverseDecl 7 D = some (true, D1, errs))
      ∧ ParseArgs ["-help"] = true :=
  C8_never_reports_failure 7
    [functionDecl "f" [loopBraced], functionDecl "main" [loopNested]] ["-help"] (by decide)

/-- C9: the rewrite changes nothing but the bodies of block-bodied `for`
loops: with fuel beyond the depth of the tree the traversal returns a tree
from which deleting the last statement of the body of every block-bodied
`for` loop gives back exactly the original tree.  In particular a `while`, a
`do` and a range-based loop keep their block as long as it was, and a tree
without block-bodied `for` loops comes back as it was. -/
theorem C9_only_for_bodies_change (fuel : Nat) (S : Stmt) (hfuel : depth S < fuel) :
    (∃ (T : Stmt) (errs : List String),
        TraverseStmt fuel S = some (true, T, errs) ∧ stripLast T = S
          ∧ (countBlockFor S = 0 → T = S))
      ∧ (∀ (Cond : Stmt) (L R : SourceLocation) (Body : List Stmt),
          appendBreaks (.WhileStmt Cond (.CompoundStmt L R Body))
              = .WhileStmt (appendBreaks Cond) (.CompoundStmt L R (Body.map appendBreaks))
            ∧ appendBreaks (.DoStmt (.CompoundStmt L R Body) Cond)
              = .DoStmt (.CompoundStmt L R (Body.map appendBreaks)) (appendBreaks Cond))
      ∧ (∀ (Head : List Stmt) (L R : SourceLocation) (Body : List Stmt),
          appendBreaks (.CXXForRangeStmt Head (.CompoundStmt L R Body))
            = .CXXForRangeStmt (Head.map appendBreaks)
                (.CompoundStmt L R (Body.map appendBreaks))) := by
  refine ⟨⟨appendBreaks S, _, TraverseStmt_eq fuel S ?_, stripLast_appendBreaks S,
    appendBreaks_of_count_zero S⟩, ?_, ?_⟩
  · have := depth_appendBreaks_le S
    omega
  · intro Cond L R Body
    simp [appendBreaks, appendBreaksL_eq_map]
  · intro Head L R Body
    simp [appendBreaks, appendBreaksL_eq_map]

/-- The loop `for(;;){ for(;;){ x=1; } }`. -/
theorem C9_witness :
    (∃ (T : Stmt) (errs : List String),
        TraverseStmt 6 loopNested = some (true, T, errs) ∧ stripLast T = loopNested
          ∧ (countBlockFor loopNested = 0 → T = loopNested))
      ∧ (∀ (Cond : Stmt) (L R : SourceLocation) (Body : List Stmt),
          appendBreaks (.WhileStmt Cond (.CompoundStmt L R Body))
              = .WhileStmt (appendBreaks Cond) (.CompoundStmt L R (Body.map appendBreaks))
            ∧ appendBreaks (.DoStmt (.CompoundStmt L R Body) Cond)
              = .DoStmt (.CompoundStmt L R (Body.map appendBreaks)) (appendBreaks Cond))
      ∧ (∀ (Head : List Stmt) (L R : SourceLocation) (Body : List Stmt),
          appendBreaks (.CXXForRangeStmt Head (.CompoundStmt L R Body))
            = .CXXForRangeStmt (Head.map appendBreaks)
                (.CompoundStmt L R (Body.map appendBreaks))) :=
  C9_only_for_bodies_change 6 loopNested (by decide)

/-- C10: in `VisitForStmt` every access to the stash array is in bounds: for a
block of n statements the array has n+1 slots; the copy loop succeeds and
leaves the statements of the block, in order, in the slots 0 to n-1, the slot
n unwritten and `stashIndex` at n; the `break` is stored in the slot n; and
the length handed to the new block is n+1, the size of the array, all of
whose slots have been written.  This includes the empty block. -/
theorem C10_stash_in_bounds (L R : SourceLocation) (CS : List Stmt) :
    (newStash (CS.length + 1)).length = CS.length + 1
      ∧ copyBody CS (newStash (CS.length + 1)) 0 = some (CS.map some ++ [none], CS.length)
      ∧ storeAt (CS.map some ++ [none]) CS.length (.BreakStmt (getEndLoc L R))
          = some (CS.map some ++ [some (.BreakStmt R)])
      ∧ (CS.map some ++ [some (Stmt.BreakStmt R)]).length = CS.length + 1
      ∧ ArrayRef (CS.map some ++ [some (.BreakStmt R)]) (CS.length + 1)
          = some (CS ++ [.BreakStmt R])
      ∧ copyBody [] (newStash 1) 0 = some ([none], 0)
      ∧ ∀ Init CondVar Cond Inc : Option Stmt,
          VisitForStmt Init CondVar Cond Inc (.CompoundStmt L R CS)
            = some (true,
                .ForStmt Init CondVar Cond Inc (.CompoundStmt L R (CS ++ [.BreakStmt R])),
                ["inside for loop\n"]) := by
  have h1 : copyBody CS (newStash (CS.length + 1)) 0
      = some (CS.map some ++ [none], CS.length) := by
    have := copyBody_spec CS [] 1
    simpa [newStash] using this
  have h2 : storeAt (CS.map some ++ [none]) CS.length (Stmt.BreakStmt (getEndLoc L R))
      = some (CS.map some ++ [some (Stmt.BreakStmt R)]) := by
    unfold storeAt getEndLoc
    rw [if_pos (by simp)]
    have h : ((CS.map some) ++ [none]).set CS.length (some (Stmt.BreakStmt R))
        = CS.map some ++ ([none] : List (Option Stmt)).set
            (CS.length - (CS.map some).length) (some (Stmt.BreakStmt R)) :=
      List.set_append_right CS.length (some (Stmt.BreakStmt R)) (by simp)
    rw [h]; simp
  have h3 : ArrayRef (CS.map some ++ [some (Stmt.BreakStmt R)]) (CS.length + 1)
      = some (CS ++ [Stmt.BreakStmt R]) := by
    have e : CS.map some ++ [some (Stmt.BreakStmt R)] = (CS ++ [Stmt.BreakStmt R]).map some := by
      simp
    rw [e]
    unfold ArrayRef
    rw [if_pos (by simp)]
    rw [List.take_of_length_le (by simp)]
    exact readAll_map_some _
  exact ⟨by simp [newStash], h1, h2, by simp, h3, rfl,
    fun Init CondVar Cond Inc => VisitForStmt_block Init CondVar Cond Inc L R CS⟩

end LoopRewriter
